import Mathlib

/-
Verification of the 39SF040 EEPROM programmer (src/eeprom_programmer.c).

The programmer bit-bangs a 24-bit shift-register address bus and an 8-bit
data bus.  We embed the protocol engine shallowly:

* every GPIO operation the C code performs becomes a pin-level event (`Ev`);
  each C routine that only wiggles pins is translated to the list of events
  it emits, in source order (`shiftAddressTrace`, `setDataPinsTrace`,
  `setWriteModeTrace`, `writeTrace`, `EEPROM_writeByteTrace`,
  `EEPROM_chipEraseTrace`);
* a small simulator (`step` / `runTrace`) interprets events over the external
  hardware state (`Sim`): the 74HC595 shift-register chain, its latched
  outputs, the serial data line, the 8 data-pin levels and directions.  A
  falling edge on /WE samples the latched address and the data pins and is
  recorded as one bus write, which is also fed to the chip model;
* the chip command state machine (`chipStep`) is modelled from the claims'
  premise (the device is hardware, not repository code): a completed
  0x5555/0xAA, 0x2AAA/0x55, 0x5555/0xA0 unlock sequence makes the next bus
  write store its byte at its bus address, and the six-write erase sequence
  resets every byte to 0xFF;
* the chunked program / verify / erase-verify loops are translated from
  `EEPROM_WriteCurrentFile`, `EEPROM_ReadAndVerify` and
  `EEPROM_VerifyErased`, with the SD-card stream modelled as the list of
  bytes it yields and `f_read` always succeeding; the display and serial
  output calls are the excluded status-sink collaborator and have no
  observable effect on the engine state.

The shift-register chain is wired so that the bit shifted first ends up at
the far end of the chain, which drives address line A0; decoding the latched
outputs least-significant-bit-first therefore yields the bus address.
-/

set_option maxRecDepth 8192

namespace EP

/-- `const int ADDRESS_LINES = 24` — 8 times the number of 74HC595 chips. -/
def ADDRESS_LINES : Nat := 24

/-- `const int MAX_EEPROM_ADDRESS_SPACE = 524288` — 2^19 bytes, A0..A18. -/
def MAX_EEPROM_ADDRESS_SPACE : Nat := 524288

/-- `const int BUFFER_SIZE = 1024` — bytes pulled from the SD card per `f_read`. -/
def BUFFER_SIZE : Nat := 1024

/-- Pin-level events, one per GPIO call of the C source.  `putD i b` drives
data pin Di, `setDirD i b` sets its direction (`true` = output),
`putSerialData`/`putClock`/`putLatch` drive the shift-register lines, and
`putWE`/`putOE`/`putCE` the three EEPROM control lines. -/
inductive Ev where
  | putLatch : Bool → Ev
  | putSerialData : Bool → Ev
  | putClock : Bool → Ev
  | putD : Nat → Bool → Ev
  | setDirD : Nat → Bool → Ev
  | putWE : Bool → Ev
  | putOE : Bool → Ev
  | putCE : Bool → Ev
  | nop : Ev
  | sleepUs : Nat → Ev
  | sleepMs : Nat → Ev

/-- Pointwise memory update, used by the chip model's byte-program step. -/
def update (m : Nat → Nat) (x v : Nat) : Nat → Nat :=
  fun y => if y = x then v else m y

/-- The 39SF040 command state machine, modelled from the claims' premise
(the device is hardware, not repository code).  `phase` tracks progress
through the vendor command sequences: phases 1-2 are the unlock prefix,
phase 3 stores the next bus write's byte at its bus address, phases 4-6 are
the erase sequence, which resets every byte to 0xFF. -/
structure Chip where
  mem : Nat → Nat
  phase : Nat

/-- One bus write `(address, data)` as seen by the chip. -/
def chipStep (c : Chip) (w : Nat × Nat) : Chip :=
  match c.phase with
  | 0 => if w.1 = 0x5555 ∧ w.2 = 0xAA then { c with phase := 1 } else { c with phase := 0 }
  | 1 => if w.1 = 0x2AAA ∧ w.2 = 0x55 then { c with phase := 2 } else { c with phase := 0 }
  | 2 =>
    if w.1 = 0x5555 ∧ w.2 = 0xA0 then { c with phase := 3 }
    else if w.1 = 0x5555 ∧ w.2 = 0x80 then { c with phase := 4 }
    else { c with phase := 0 }
  | 3 => { mem := update c.mem w.1 w.2, phase := 0 }
  | 4 => if w.1 = 0x5555 ∧ w.2 = 0xAA then { c with phase := 5 } else { c with phase := 0 }
  | 5 => if w.1 = 0x2AAA ∧ w.2 = 0x55 then { c with phase := 6 } else { c with phase := 0 }
  | 6 =>
    if w.1 = 0x5555 ∧ w.2 = 0x10 then { mem := fun _ => 0xFF, phase := 0 }
    else { c with phase := 0 }
  | _ => { c with phase := 0 }

/-- Feed a list of bus writes to the chip. -/
def chipRun (c : Chip) (ws : List (Nat × Nat)) : Chip := ws.foldl chipStep c

/-- External hardware state seen by the programmer: the shift-register chain
contents `reg` (index 0 = the bit shifted in first, i.e. the far end of the
chain, wired to A0), the latched parallel outputs `latched`, the serial data
line level, the 8 data-pin output levels and directions, the log of bus
writes sampled at /WE falling edges, and the chip model. -/
structure Sim where
  reg : List Bool
  latched : List Bool
  dataLine : Bool
  dpins : List Bool
  dirs : List Bool
  writes : List (Nat × Nat)
  chip : Chip

/-- Hardware well-formedness: the chain is 24 bits wide and there are 8 data
pins. -/
def wf (s : Sim) : Prop :=
  s.reg.length = ADDRESS_LINES ∧ s.dpins.length = 8 ∧ s.dirs.length = 8

/-- One shift-register clock: the chain moves one position towards its far
end and the serial input enters at the near end. -/
def shiftIn (r : List Bool) (b : Bool) : List Bool := r.drop 1 ++ [b]

/-- Value of a bit list read least-significant-bit-first. -/
def bitsToNat : List Bool → Nat
  | [] => 0
  | b :: bs => (if b then 1 else 0) + 2 * bitsToNat bs

/-- Event semantics.  A falling edge on /WE samples the latched address and
the data pins: that pair is logged and fed to the chip.  /OE, /CE, delays
and direction changes have no effect on the modelled state. -/
def step (s : Sim) (e : Ev) : Sim :=
  match e with
  | .putSerialData b => { s with dataLine := b }
  | .putClock b => if b then { s with reg := shiftIn s.reg s.dataLine } else s
  | .putLatch b => if b then { s with latched := s.reg } else s
  | .putD i b => { s with dpins := s.dpins.set i b }
  | .setDirD i b => { s with dirs := s.dirs.set i b }
  | .putWE b =>
    if b then s
    else
      { s with
        writes := s.writes ++ [(bitsToNat s.latched, bitsToNat s.dpins)],
        chip := chipStep s.chip (bitsToNat s.latched, bitsToNat s.dpins) }
  | _ => s

/-- Run a list of events. -/
def runTrace (t : List Ev) (s : Sim) : Sim := t.foldl step s

/-- The bit extraction loop both `shiftAddress` and `setDataPins` perform:
`(x & 0x01) != 0`, then `x >>= 1`, `n` times. -/
def shiftBitsAux : Nat → Nat → List Bool
  | 0, _ => []
  | n + 1, a => ((a &&& 1) != 0) :: shiftBitsAux n (a >>> 1)

/-- The 24 bits `shiftAddress` shifts out, least-significant-bit first. -/
def shiftAddressBits (address : Nat) : List Bool :=
  shiftBitsAux ADDRESS_LINES address

/-- The 8 bits `setDataPins` drives onto D0..D7, least-significant-bit first. -/
def byteBits (data : Nat) : List Bool := shiftBitsAux 8 data

/-- Events of one iteration of the `shiftAddress` loop: set the data line,
settle, clock high, settle, clock low, settle. -/
def bitBlock (b : Bool) : List Ev :=
  [Ev.putSerialData b, Ev.nop, Ev.putClock true, Ev.nop, Ev.putClock false, Ev.nop]

/-- Concatenated per-bit blocks of the `shiftAddress` loop. -/
def bitBlocks : List Bool → List Ev
  | [] => []
  | b :: bs => bitBlock b ++ bitBlocks bs

/-- `shiftAddress(uint32_t addr)`: lower latch, data and clock, shift all
`ADDRESS_LINES` bits LSB first, then pulse the latch once. -/
def shiftAddressTrace (address : Nat) : List Ev :=
  [Ev.putLatch false, Ev.putSerialData false, Ev.putClock false]
  ++ bitBlocks (shiftAddressBits address)
  ++ [Ev.putLatch true, Ev.nop, Ev.putLatch false, Ev.nop]

/-- The `setDataPins` loop: `gpio_put(pins[i], isOne)` for i = 0..7, where
`isOne` is the next low bit of the (shifting) data byte. -/
def setDataPinsAux : Nat → Nat → Nat → List Ev
  | 0, _, _ => []
  | n + 1, i, d => Ev.putD i ((d &&& 1) != 0) :: setDataPinsAux n (i + 1) (d >>> 1)

/-- `setDataPins(uint8_t byteOfData)`. -/
def setDataPinsTrace (data : Nat) : List Ev := setDataPinsAux 8 0 data

/-- The `setWriteMode` loop: each data pin becomes an output driven low. -/
def setWriteModeAux : Nat → Nat → List Ev
  | 0, _ => []
  | n + 1, i => Ev.setDirD i true :: Ev.putD i false :: setWriteModeAux n (i + 1)

/-- `setWriteMode()`: data pins out and low, then /OE, /CE, /WE all high,
then a settle delay. -/
def setWriteModeTrace : List Ev :=
  setWriteModeAux 8 0
  ++ [Ev.putOE true, Ev.putCE true, Ev.putWE true, Ev.sleepMs 1]

/-- `write(uint32_t address, uint8_t data)`: idle levels, settle, shift the
address, drive the data pins, settle, pulse /WE low for 1 µs, raise /WE,
deassert /CE and hold 25 µs for the internal write cycle. -/
def writeTrace (address data : Nat) : List Ev :=
  [Ev.putOE true, Ev.putWE true, Ev.putCE false, Ev.nop]
  ++ shiftAddressTrace address
  ++ setDataPinsTrace data
  ++ [Ev.nop, Ev.putWE false, Ev.sleepUs 1, Ev.putWE true, Ev.sleepUs 1,
      Ev.putCE true, Ev.sleepUs 25]

/-- `EEPROM_writeByte(address, data)`: the three-pair unlock prefix followed
immediately by the data write. -/
def EEPROM_writeByteTrace (address data : Nat) : List Ev :=
  writeTrace 0x5555 0xAA ++ writeTrace 0x2AAA 0x55 ++ writeTrace 0x5555 0xA0
  ++ writeTrace address data

/-- `EEPROM_chipErase()`: enter write mode, emit the six-pair erase
sequence, then wait 1000 ms (the OLED messages are the excluded display
collaborator and emit no pin events). -/
def EEPROM_chipEraseTrace : List Ev :=
  (setWriteModeTrace
    ++ writeTrace 0x5555 0xAA ++ writeTrace 0x2AAA 0x55 ++ writeTrace 0x5555 0x80
    ++ writeTrace 0x5555 0xAA ++ writeTrace 0x2AAA 0x55 ++ writeTrace 0x5555 0x10)
  ++ [Ev.sleepMs 1000]

/-- One iteration of the `setReadMode` loop: if pin Di is currently an
output, drive it low first; then make it an input (with pull-down). -/
def setReadModePin (s : Sim) (i : Nat) : Sim :=
  let s1 := if s.dirs.getD i true then { s with dpins := s.dpins.set i false } else s
  { s1 with dirs := s1.dirs.set i false }

/-- `setReadMode()`: all data pins become inputs; /WE high, /OE low, /CE low
and the settle delays have no modelled effect. -/
def setReadModeRun (s : Sim) : Sim :=
  (List.range 8).foldl setReadModePin s

/-- The `EEPROM_readByte` assembly loop: `output = output << 1 | bit`. -/
def readAssemble (bits : List Bool) : Nat :=
  bits.foldl (fun output b => output <<< 1 ||| (if b then 1 else 0)) 0

/-- `EEPROM_readByte(uint32_t address)`: shift the address out, then sample
pins D7 down to D0 and assemble them MSB first.  In read mode the chip
drives pin Di with bit i of the byte stored at the latched bus address. -/
def EEPROM_readByteM (s : Sim) (address : Nat) : Nat × Sim :=
  let s1 := runTrace (shiftAddressTrace address) s
  let byte := s1.chip.mem (bitsToNat s1.latched)
  (readAssemble [byte.testBit 7, byte.testBit 6, byte.testBit 5, byte.testBit 4,
                 byte.testBit 3, byte.testBit 2, byte.testBit 1, byte.testBit 0], s1)

/-- Result of `EEPROM_WriteCurrentFile`: final hardware state, final address
cursor, and the number of `f_read` chunk requests made. -/
structure WriteResult where
  sim : Sim
  address : Nat
  readCalls : Nat

/-- Body of the `EEPROM_WriteCurrentFile` inner loop: write one byte at the
cursor and advance the cursor. -/
def progStep (p : Sim × Nat) (b : Nat) : Sim × Nat :=
  (runTrace (EEPROM_writeByteTrace p.2 b) p.1, p.2 + 1)

/-- The `EEPROM_WriteCurrentFile` while loop: read up to `BUFFER_SIZE` bytes
from the stream, write each to the EEPROM, and stop after the first short
read (`numBytesRead < BUFFER_SIZE`).  `f_read` is modelled as always
succeeding, yielding the next bytes of `fil`. -/
def fileLoop (fil : List Nat) (s : Sim) (address reads : Nat) : WriteResult :=
  let p := (fil.take BUFFER_SIZE).foldl progStep (s, address)
  if h : (fil.take BUFFER_SIZE).length < BUFFER_SIZE then ⟨p.1, p.2, reads + 1⟩
  else fileLoop (fil.drop BUFFER_SIZE) p.1 p.2 (reads + 1)
termination_by fil.length
decreasing_by
  simp only [List.length_drop, List.length_take, BUFFER_SIZE] at *
  omega

/-- `EEPROM_WriteCurrentFile(FIL* fil)`: enter write mode once, then stream
the file to sequential addresses starting at 0. -/
def EEPROM_WriteCurrentFileRun (fil : List Nat) (s : Sim) : WriteResult :=
  fileLoop fil (runTrace setWriteModeTrace s) 0 0

/-- Verification loop state: hardware state, address cursor, error count,
the `(address, expected, actual)` triples passed to `handleByteMismatch`,
and the log of addresses handed to `EEPROM_readByte`. -/
structure ScanState where
  sim : Sim
  address : Nat
  errors : Nat
  log : List (Nat × Nat × Nat)
  reads : List Nat

/-- Body of both verification loops: read the byte at the cursor, compare it
with the expected byte `b`, count and record a mismatch, advance the
cursor. -/
def verifyStep (st : ScanState) (b : Nat) : ScanState :=
  let q := EEPROM_readByteM st.sim st.address
  let st1 :=
    if q.1 = b then
      { st with sim := q.2, reads := st.reads ++ [st.address] }
    else
      { st with sim := q.2, reads := st.reads ++ [st.address],
                errors := st.errors + 1, log := st.log ++ [(st.address, b, q.1)] }
  { st1 with address := st1.address + 1 }

/-- Result of `EEPROM_ReadAndVerify`: final loop state plus the number of
`f_read` chunk requests made. -/
structure VerifyResult where
  state : ScanState
  readCalls : Nat

/-- The `EEPROM_ReadAndVerify` while loop, chunked exactly like
`EEPROM_WriteCurrentFile`. -/
def verifyLoop (fil : List Nat) (st : ScanState) (reads : Nat) : VerifyResult :=
  let st2 := (fil.take BUFFER_SIZE).foldl verifyStep st
  if h : (fil.take BUFFER_SIZE).length < BUFFER_SIZE then ⟨st2, reads + 1⟩
  else verifyLoop (fil.drop BUFFER_SIZE) st2 (reads + 1)
termination_by fil.length
decreasing_by
  simp only [List.length_drop, List.length_take, BUFFER_SIZE] at *
  omega

/-- `EEPROM_ReadAndVerify(FIL* fil)`: enter read mode once, then compare the
chip contents against the stream from address 0. -/
def EEPROM_ReadAndVerifyRun (fil : List Nat) (s : Sim) : VerifyResult :=
  verifyLoop fil ⟨setReadModeRun s, 0, 0, [], []⟩ 0

/-- The `EEPROM_VerifyErased` for loop: `MAX_EEPROM_ADDRESS_SPACE`
iterations of the verify body with expected byte 0xFF (the loop counter is
only a counter; the body uses the address cursor). -/
def erasedLoop (st : ScanState) : Nat → ScanState
  | 0 => st
  | n + 1 => erasedLoop (verifyStep st 0xFF) n

/-- `EEPROM_VerifyErased()`: enter read mode, then scan the whole address
space expecting 0xFF everywhere. -/
def EEPROM_VerifyErasedRun (s : Sim) : ScanState :=
  erasedLoop ⟨setReadModeRun s, 0, 0, [], []⟩ MAX_EEPROM_ADDRESS_SPACE

/-- The four bus writes one `EEPROM_writeByte(address, data)` produces. -/
def wbOps (address data : Nat) : List (Nat × Nat) :=
  [(0x5555, 0xAA), (0x2AAA, 0x55), (0x5555, 0xA0), (address % 2 ^ 24, data % 256)]

/-- Bus writes produced by streaming `bs` to sequential cursors from
`address`. -/
def progOps (address : Nat) : List Nat → List (Nat × Nat)
  | [] => []
  | b :: bs => wbOps address b ++ progOps (address + 1) bs

/-- Chip memory after streaming `bs` to sequential cursors from `address`. -/
def storeBytes (mem : Nat → Nat) (address : Nat) : List Nat → (Nat → Nat)
  | [] => mem
  | b :: bs => storeBytes (update mem (address % 2 ^ 24) (b % 256)) (address + 1) bs

/-- The level left on the serial data line after `shiftAddress(address)`. -/
def lastBit (address : Nat) : Bool := (shiftAddressBits address).getLastD false

/-- The `Sim` state left behind by one `shiftAddress(a)` call. -/
def shiftedSim (s : Sim) (a : Nat) : Sim :=
  { s with reg := shiftAddressBits a, latched := shiftAddressBits a, dataLine := lastBit a }

/-- The byte `EEPROM_readByte(a)` returns: the chip byte at the 24-bit bus
address that cursor `a` serializes to. -/
def readback (mem : Nat → Nat) (a : Nat) : Nat := mem (a % 2 ^ 24) % 256

/-- The `(address, expected, actual)` mismatch triples a verification pass
over `bs` records, starting at cursor `address`. -/
def mismatches (mem : Nat → Nat) : Nat → List Nat → List (Nat × Nat × Nat)
  | _, [] => []
  | a, b :: bs =>
    (if readback mem a = b then [] else [(a, b, readback mem a)])
    ++ mismatches mem (a + 1) bs

/-- Detects a rising clock edge event (one shift-register clock pulse). -/
def isClockRise : Ev → Bool
  | Ev.putClock true => true
  | _ => false

/-- Detects a rising latch edge event (one latch pulse). -/
def isLatchRise : Ev → Bool
  | Ev.putLatch true => true
  | _ => false

/-- A concrete well-formed hardware state: chain and latch cleared, pins
low and configured as inputs, empty write log, erased chip in idle phase. -/
def sim0 : Sim :=
  { reg := List.replicate 24 false
    latched := List.replicate 24 false
    dataLine := false
    dpins := List.replicate 8 false
    dirs := List.replicate 8 false
    writes := []
    chip := { mem := fun _ => 0xFF, phase := 0 } }

/-! ### Bit-level arithmetic lemmas -/

theorem shiftBitsAux_length (n a : Nat) : (shiftBitsAux n a).length = n := by
  induction n generalizing a with
  | zero => rfl
  | succ n ih => simp [shiftBitsAux, ih]

theorem shiftAddressBits_length (a : Nat) :
    (shiftAddressBits a).length = ADDRESS_LINES := shiftBitsAux_length _ _

theorem byteBits_length (d : Nat) : (byteBits d).length = 8 := shiftBitsAux_length _ _

theorem bitsToNat_shiftBitsAux (n a : Nat) : bitsToNat (shiftBitsAux n a) = a % 2 ^ n := by
  induction n generalizing a with
  | zero => simp [shiftBitsAux, bitsToNat, Nat.mod_one]
  | succ n ih =>
    have h2 : a % (2 * 2 ^ n) = a % 2 + 2 * (a / 2 % 2 ^ n) := Nat.mod_mul
    rcases Nat.mod_two_eq_zero_or_one a with h | h <;>
      simp [shiftBitsAux, bitsToNat, Nat.and_one_is_mod, Nat.shiftRight_one, ih, h,
        pow_succ, mul_comm] <;> omega

theorem shiftBitsAux_mod (n a : Nat) : shiftBitsAux n (a % 2 ^ n) = shiftBitsAux n a := by
  induction n generalizing a with
  | zero => rfl
  | succ n ih =>
    have h2 : a % (2 * 2 ^ n) = a % 2 + 2 * (a / 2 % 2 ^ n) := Nat.mod_mul
    have hmod : a % 2 ^ (n + 1) % 2 = a % 2 := by
      rw [pow_succ, mul_comm]; exact Nat.mod_mod_of_dvd a ⟨2 ^ n, rfl⟩
    have hdiv : a % 2 ^ (n + 1) / 2 = a / 2 % 2 ^ n := by
      rw [pow_succ, mul_comm]; omega
    simp only [shiftBitsAux, Nat.and_one_is_mod, Nat.shiftRight_one, hmod, hdiv]
    rw [← ih (a / 2)]

theorem shiftBitsAux_getD (n i a : Nat) (h : i < n) :
    (shiftBitsAux n a).getD i false = a.testBit i := by
  induction n generalizing i a with
  | zero => omega
  | succ n ih =>
    cases i with
    | zero =>
      simp [shiftBitsAux, List.getD_cons_zero, Nat.and_one_is_mod, Nat.testBit_zero]
      rcases Nat.mod_two_eq_zero_or_one a with h | h <;> simp [h]
    | succ i =>
      simp only [shiftBitsAux, List.getD_cons_succ, Nat.shiftRight_one]
      rw [ih i (a / 2) (by omega), Nat.testBit_succ]

theorem shiftBitsAux_zero (n : Nat) : shiftBitsAux n 0 = List.replicate n false := by
  induction n with
  | zero => rfl
  | succ n ih => simp [shiftBitsAux, ih, List.replicate_succ]

/-! ### Shift-register fold -/

theorem foldl_shiftIn (bs : List Bool) :
    ∀ r : List Bool, bs.length ≤ r.length →
      List.foldl shiftIn r bs = r.drop bs.length ++ bs := by
  induction bs with
  | nil => intro r _; simp
  | cons b bs ih =>
    intro r hr
    have hr1 : 1 ≤ r.length := by simp at hr; omega
    have hbs : bs.length ≤ (shiftIn r b).length := by
      simp [shiftIn, List.length_drop] at *; omega
    rw [List.foldl_cons, ih (shiftIn r b) hbs]
    have hdrop : (shiftIn r b).drop bs.length = r.drop (bs.length + 1) ++ [b] := by
      simp only [shiftIn]
      rw [List.drop_append_of_le_length (by simp [List.length_drop] at *; omega),
        List.drop_drop, Nat.add_comm]
    rw [hdrop]
    simp

/-! ### Run-effect lemmas for the primitive traces -/

theorem runTrace_append (t1 t2 : List Ev) (s : Sim) :
    runTrace (t1 ++ t2) s = runTrace t2 (runTrace t1 s) := by
  simp [runTrace, List.foldl_append]

theorem run_bitBlocks (bs : List Bool) :
    ∀ s : Sim, runTrace (bitBlocks bs) s =
      { s with reg := List.foldl shiftIn s.reg bs, dataLine := bs.getLastD s.dataLine } := by
  induction bs with
  | nil => intro s; rfl
  | cons b bs ih =>
    intro s
    show runTrace (bitBlock b ++ bitBlocks bs) s = _
    rw [runTrace_append]
    have hblock : runTrace (bitBlock b) s = { s with dataLine := b, reg := shiftIn s.reg b } := rfl
    rw [hblock, ih, List.foldl_cons, List.getLastD_cons]

theorem run_shiftAddress (a : Nat) (s : Sim) (h : s.reg.length = ADDRESS_LINES) :
    runTrace (shiftAddressTrace a) s =
      { s with reg := shiftAddressBits a, latched := shiftAddressBits a,
               dataLine := lastBit a } := by
  have hlen : (shiftAddressBits a).length ≤ s.reg.length := by
    rw [shiftAddressBits_length, h]
  show runTrace ([Ev.putLatch false, Ev.putSerialData false, Ev.putClock false]
    ++ bitBlocks (shiftAddressBits a)
    ++ [Ev.putLatch true, Ev.nop, Ev.putLatch false, Ev.nop]) s = _
  rw [runTrace_append, runTrace_append]
  have hpre : runTrace [Ev.putLatch false, Ev.putSerialData false, Ev.putClock false] s =
      { s with dataLine := false } := rfl
  rw [hpre, run_bitBlocks]
  have hreg : List.foldl shiftIn s.reg (shiftAddressBits a) = shiftAddressBits a := by
    rw [foldl_shiftIn _ _ hlen, shiftAddressBits_length, ← h, List.drop_length, List.nil_append]
  simp only [hreg]
  rfl

theorem run_setDataPins (d : Nat) (s : Sim) (h : s.dpins.length = 8) :
    runTrace (setDataPinsTrace d) s = { s with dpins := byteBits d } := by
  obtain ⟨reg, latched, dataLine, dpins, dirs, writes, chip⟩ := s
  simp only at h
  match dpins, h with
  | [x0, x1, x2, x3, x4, x5, x6, x7], _ =>
    simp [setDataPinsTrace, setDataPinsAux, runTrace, step, byteBits, shiftBitsAux,
      List.set]

theorem run_setWriteMode (s : Sim) (h : s.dpins.length = 8) (h2 : s.dirs.length = 8) :
    runTrace setWriteModeTrace s =
      { s with dpins := List.replicate 8 false, dirs := List.replicate 8 true } := by
  obtain ⟨reg, latched, dataLine, dpins, dirs, writes, chip⟩ := s
  simp only at h h2
  match dpins, dirs, h, h2 with
  | [x0, x1, x2, x3, x4, x5, x6, x7], [y0, y1, y2, y3, y4, y5, y6, y7], _, _ =>
    simp [setWriteModeTrace, setWriteModeAux, runTrace, step, List.set,
      List.replicate]

theorem run_write (a d : Nat) (s : Sim) (h : wf s) :
    runTrace (writeTrace a d) s =
      { s with reg := shiftAddressBits a, latched := shiftAddressBits a,
               dataLine := lastBit a, dpins := byteBits d,
               writes := s.writes ++ [(a % 2 ^ 24, d % 256)],
               chip := chipStep s.chip (a % 2 ^ 24, d % 256) } := by
  obtain ⟨h1, h2, h3⟩ := h
  show runTrace ([Ev.putOE true, Ev.putWE true, Ev.putCE false, Ev.nop]
    ++ shiftAddressTrace a ++ setDataPinsTrace d
    ++ [Ev.nop, Ev.putWE false, Ev.sleepUs 1, Ev.putWE true, Ev.sleepUs 1,
        Ev.putCE true, Ev.sleepUs 25]) s = _
  rw [runTrace_append, runTrace_append, runTrace_append]
  have hpre : runTrace [Ev.putOE true, Ev.putWE true, Ev.putCE false, Ev.nop] s = s := rfl
  rw [hpre, run_shiftAddress a s h1, run_setDataPins d _ (by simpa using h2)]
  have hc : bitsToNat (shiftAddressBits a) = a % 2 ^ 24 := bitsToNat_shiftBitsAux _ _
  have hd : bitsToNat (byteBits d) = d % 256 := bitsToNat_shiftBitsAux 8 d
  simp [runTrace, step, hc, hd]

theorem run_write_fields (a d : Nat) (s : Sim) (h : wf s) :
    wf (runTrace (writeTrace a d) s) ∧
    (runTrace (writeTrace a d) s).writes = s.writes ++ [(a % 2 ^ 24, d % 256)] ∧
    (runTrace (writeTrace a d) s).chip = chipStep s.chip (a % 2 ^ 24, d % 256) ∧
    (runTrace (writeTrace a d) s).dirs = s.dirs := by
  rw [run_write a d s h]
  exact ⟨⟨shiftAddressBits_length _, byteBits_length _, h.2.2⟩, rfl, rfl, rfl⟩

theorem run_writeByte_fields (a d : Nat) (s : Sim) (h : wf s) :
    wf (runTrace (EEPROM_writeByteTrace a d) s) ∧
    (runTrace (EEPROM_writeByteTrace a d) s).writes = s.writes ++ wbOps a d ∧
    (runTrace (EEPROM_writeByteTrace a d) s).chip = chipRun s.chip (wbOps a d) ∧
    (runTrace (EEPROM_writeByteTrace a d) s).dirs = s.dirs := by
  have happ : runTrace (EEPROM_writeByteTrace a d) s =
      runTrace (writeTrace a d) (runTrace (writeTrace 0x5555 0xA0)
        (runTrace (writeTrace 0x2AAA 0x55) (runTrace (writeTrace 0x5555 0xAA) s))) := by
    show runTrace (writeTrace 0x5555 0xAA ++ writeTrace 0x2AAA 0x55
      ++ writeTrace 0x5555 0xA0 ++ writeTrace a d) s = _
    rw [runTrace_append, runTrace_append, runTrace_append]
  obtain ⟨w1, e1, c1, d1⟩ := run_write_fields 0x5555 0xAA s h
  obtain ⟨w2, e2, c2, d2⟩ := run_write_fields 0x2AAA 0x55 _ w1
  obtain ⟨w3, e3, c3, d3⟩ := run_write_fields 0x5555 0xA0 _ w2
  obtain ⟨w4, e4, c4, d4⟩ := run_write_fields a d _ w3
  rw [happ]
  refine ⟨w4, ?_, ?_, ?_⟩
  · rw [e4, e3, e2, e1]
    simp [wbOps, List.append_assoc]
  · rw [c4, c3, c2, c1]
    simp [wbOps, chipRun]
  · rw [d4, d3, d2, d1]

/-! ### Chip state machine lemmas -/

theorem chipRun_append (c : Chip) (u v : List (Nat × Nat)) :
    chipRun c (u ++ v) = chipRun (chipRun c u) v := by
  simp [chipRun, List.foldl_append]

theorem chipRun_wbOps (c : Chip) (a d : Nat) (h : c.phase = 0) :
    chipRun c (wbOps a d) = { mem := update c.mem (a % 2 ^ 24) (d % 256), phase := 0 } := by
  obtain ⟨mem, phase⟩ := c
  simp only at h
  subst h
  simp [chipRun, wbOps, chipStep]

theorem chipRun_progOps (bs : List Nat) :
    ∀ (c : Chip) (a : Nat), c.phase = 0 →
      chipRun c (progOps a bs) = { mem := storeBytes c.mem a bs, phase := 0 } := by
  induction bs with
  | nil => intro c a h; obtain ⟨mem, phase⟩ := c; simp only at h; subst h; rfl
  | cons b bs ih =>
    intro c a h
    show chipRun c (wbOps a b ++ progOps (a + 1) bs) = _
    rw [chipRun_append, chipRun_wbOps c a b h, ih _ (a + 1) rfl]
    rfl

/-! ### Read-side lemmas -/

theorem readAssemble_bounded :
    ∀ w, w < 256 → readAssemble [w.testBit 7, w.testBit 6, w.testBit 5, w.testBit 4,
      w.testBit 3, w.testBit 2, w.testBit 1, w.testBit 0] = w := by decide

theorem readAssemble_byte (v : Nat) :
    readAssemble [v.testBit 7, v.testBit 6, v.testBit 5, v.testBit 4,
      v.testBit 3, v.testBit 2, v.testBit 1, v.testBit 0] = v % 256 := by
  have hb : ∀ i, i < 8 → v.testBit i = (v % 256).testBit i := by
    intro i hi
    have : (256 : Nat) = 2 ^ 8 := by norm_num
    rw [this, Nat.testBit_mod_two_pow]
    simp [hi]
  rw [hb 7 (by omega), hb 6 (by omega), hb 5 (by omega), hb 4 (by omega),
    hb 3 (by omega), hb 2 (by omega), hb 1 (by omega), hb 0 (by omega)]
  exact readAssemble_bounded (v % 256) (Nat.mod_lt v (by norm_num))

theorem readByteM_eq (s : Sim) (a : Nat) (h : wf s) :
    EEPROM_readByteM s a = (readback s.chip.mem a, shiftedSim s a) := by
  obtain ⟨h1, h2, h3⟩ := h
  show (let s1 := runTrace (shiftAddressTrace a) s
        let byte := s1.chip.mem (bitsToNat s1.latched)
        (readAssemble [byte.testBit 7, byte.testBit 6, byte.testBit 5, byte.testBit 4,
          byte.testBit 3, byte.testBit 2, byte.testBit 1, byte.testBit 0], s1)) = _
  simp only [run_shiftAddress a s h1]
  rw [show bitsToNat (shiftAddressBits a) = a % 2 ^ 24 from bitsToNat_shiftBitsAux _ _]
  rw [readAssemble_byte]
  rfl

/-! ### setReadMode lemmas -/

theorem setReadModePin_fields (s : Sim) (i : Nat) :
    (setReadModePin s i).reg = s.reg ∧ (setReadModePin s i).latched = s.latched ∧
    (setReadModePin s i).writes = s.writes ∧ (setReadModePin s i).chip = s.chip ∧
    (setReadModePin s i).dirs = s.dirs.set i false ∧
    (setReadModePin s i).dpins.length = s.dpins.length := by
  unfold setReadModePin
  split <;> simp

theorem foldl_setReadModePin_fields (l : List Nat) :
    ∀ s : Sim,
      (l.foldl setReadModePin s).reg = s.reg ∧
      (l.foldl setReadModePin s).latched = s.latched ∧
      (l.foldl setReadModePin s).writes = s.writes ∧
      (l.foldl setReadModePin s).chip = s.chip ∧
      (l.foldl setReadModePin s).dirs = l.foldl (fun d i => d.set i false) s.dirs ∧
      (l.foldl setReadModePin s).dpins.length = s.dpins.length := by
  induction l with
  | nil => intro s; exact ⟨rfl, rfl, rfl, rfl, rfl, rfl⟩
  | cons i l ih =>
    intro s
    obtain ⟨p1, p2, p3, p4, p5, p6⟩ := setReadModePin_fields s i
    obtain ⟨q1, q2, q3, q4, q5, q6⟩ := ih (setReadModePin s i)
    refine ⟨?_, ?_, ?_, ?_, ?_, ?_⟩ <;>
      simp only [List.foldl_cons, q1, q2, q3, q4, q5, q6, p1, p2, p3, p4, p5, p6]

theorem setReadModeRun_fields (s : Sim) :
    (setReadModeRun s).reg = s.reg ∧ (setReadModeRun s).latched = s.latched ∧
    (setReadModeRun s).writes = s.writes ∧ (setReadModeRun s).chip = s.chip ∧
    (setReadModeRun s).dirs =
      [0, 1, 2, 3, 4, 5, 6, 7].foldl (fun d i => d.set i false) s.dirs ∧
    (setReadModeRun s).dpins.length = s.dpins.length := by
  obtain ⟨q1, q2, q3, q4, q5, q6⟩ := foldl_setReadModePin_fields (List.range 8) s
  exact ⟨q1, q2, q3, q4, q5, q6⟩

theorem dirs_all_false (di : List Bool) (h : di.length = 8) :
    [0, 1, 2, 3, 4, 5, 6, 7].foldl (fun d i => d.set i false) di =
      List.replicate 8 false := by
  match di, h with
  | [y0, y1, y2, y3, y4, y5, y6, y7], _ =>
    simp [List.set, List.replicate]

theorem wf_setReadModeRun (s : Sim) (h : wf s) : wf (setReadModeRun s) := by
  obtain ⟨q1, q2, q3, q4, q5, q6⟩ := setReadModeRun_fields s
  refine ⟨by rw [q1]; exact h.1, by rw [q6]; exact h.2.1, ?_⟩
  rw [q5, dirs_all_false s.dirs h.2.2]
  rfl

/-! ### Program-loop lemmas -/

theorem progOps_append (xs ys : List Nat) :
    ∀ a : Nat, progOps a (xs ++ ys) = progOps a xs ++ progOps (a + xs.length) ys := by
  induction xs with
  | nil => intro a; simp [progOps]
  | cons b bs ih =>
    intro a
    show wbOps a b ++ progOps (a + 1) (bs ++ ys)
      = (wbOps a b ++ progOps (a + 1) bs) ++ progOps (a + (bs.length + 1)) ys
    rw [ih (a + 1), List.append_assoc]
    have h2 : a + 1 + bs.length = a + (bs.length + 1) := by omega
    rw [h2]

theorem progFold (chunk : List Nat) :
    ∀ (s : Sim) (a : Nat), wf s →
      (chunk.foldl progStep (s, a)).2 = a + chunk.length ∧
      wf (chunk.foldl progStep (s, a)).1 ∧
      (chunk.foldl progStep (s, a)).1.writes = s.writes ++ progOps a chunk ∧
      (chunk.foldl progStep (s, a)).1.chip = chipRun s.chip (progOps a chunk) ∧
      (chunk.foldl progStep (s, a)).1.dirs = s.dirs := by
  induction chunk with
  | nil =>
    intro s a h
    exact ⟨rfl, h, by simp [progOps], by simp [progOps, chipRun], rfl⟩
  | cons b bs ih =>
    intro s a h
    obtain ⟨w1, e1, c1, d1⟩ := run_writeByte_fields a b s h
    obtain ⟨q1, q2, q3, q4, q5⟩ := ih (runTrace (EEPROM_writeByteTrace a b) s) (a + 1) w1
    have hstep : List.foldl progStep (s, a) (b :: bs) =
        List.foldl progStep (runTrace (EEPROM_writeByteTrace a b) s, a + 1) bs := by
      rw [List.foldl_cons]
      simp only [progStep]
    rw [hstep]
    refine ⟨by rw [q1]; simp; omega, q2, ?_, ?_, by rw [q5, d1]⟩
    · rw [q3, e1]
      simp [progOps, List.append_assoc]
    · rw [q4, c1, ← chipRun_append]
      rfl

theorem fileLoop_spec (n : Nat) :
    ∀ (fil : List Nat), fil.length ≤ n → ∀ (s : Sim) (a r : Nat), wf s →
      (fileLoop fil s a r).address = a + fil.length ∧
      (fileLoop fil s a r).readCalls = r + fil.length / BUFFER_SIZE + 1 ∧
      wf (fileLoop fil s a r).sim ∧
      (fileLoop fil s a r).sim.writes = s.writes ++ progOps a fil ∧
      (fileLoop fil s a r).sim.chip = chipRun s.chip (progOps a fil) ∧
      (fileLoop fil s a r).sim.dirs = s.dirs := by
  induction n with
  | zero =>
    intro fil hlen s a r hwf
    have hnil : fil = [] := List.length_eq_zero.mp (by omega)
    subst hnil
    rw [fileLoop, dif_pos (by simp [BUFFER_SIZE])]
    refine ⟨?_, ?_, ?_, ?_, ?_, ?_⟩
    · simp
    · simp [BUFFER_SIZE]
    · simpa using hwf
    · simp [progOps]
    · simp [progOps, chipRun]
    · simp
  | succ n ih =>
    intro fil hlen s a r hwf
    by_cases hc : fil.length < BUFFER_SIZE
    · have htake : fil.take BUFFER_SIZE = fil := List.take_of_length_le (by omega)
      rw [fileLoop, dif_pos (by rw [htake]; exact hc)]
      rw [htake]
      obtain ⟨q1, q2, q3, q4, q5⟩ := progFold fil s a hwf
      exact ⟨q1, by rw [Nat.div_eq_of_lt hc], q2, q3, q4, q5⟩
    · have htlen : (fil.take BUFFER_SIZE).length = BUFFER_SIZE := by
        rw [List.length_take]; omega
      rw [fileLoop, dif_neg (by rw [htlen]; omega)]
      obtain ⟨q1, q2, q3, q4, q5⟩ := progFold (fil.take BUFFER_SIZE) s a hwf
      have hrest : (fil.drop BUFFER_SIZE).length ≤ n := by
        rw [List.length_drop]
        simp only [BUFFER_SIZE] at hc hlen ⊢
        omega
      obtain ⟨r1, r2, r3, r4, r5, r6⟩ := ih (fil.drop BUFFER_SIZE) hrest _ _ (r + 1) q2
      have hsplit : progOps a fil = progOps a (fil.take BUFFER_SIZE)
          ++ progOps (a + BUFFER_SIZE) (fil.drop BUFFER_SIZE) := by
        conv_lhs => rw [← List.take_append_drop BUFFER_SIZE fil]
        rw [progOps_append, htlen]
      refine ⟨?_, ?_, r3, ?_, ?_, ?_⟩
      · rw [r1, q1, htlen, List.length_drop]
        simp only [BUFFER_SIZE] at hc ⊢
        omega
      · rw [r2, List.length_drop]
        simp only [BUFFER_SIZE] at hc ⊢
        omega
      · rw [r4, q3, q1, htlen, hsplit, List.append_assoc]
      · rw [r5, q4, q1, htlen, hsplit, chipRun_append]
      · rw [r6, q5]

/-! ### Verify-loop lemmas -/

theorem mismatches_append (mem : Nat → Nat) (xs ys : List Nat) :
    ∀ a : Nat, mismatches mem a (xs ++ ys)
      = mismatches mem a xs ++ mismatches mem (a + xs.length) ys := by
  induction xs with
  | nil => intro a; simp [mismatches]
  | cons b bs ih =>
    intro a
    show (if readback mem a = b then [] else [(a, b, readback mem a)])
        ++ mismatches mem (a + 1) (bs ++ ys) = _
    rw [ih (a + 1), ← List.append_assoc]
    have h2 : a + 1 + bs.length = a + (bs.length + 1) := by omega
    rw [h2]
    rfl

theorem verifyStep_eq (st : ScanState) (b : Nat) (h : wf st.sim) :
    verifyStep st b =
      { sim := shiftedSim st.sim st.address,
        address := st.address + 1,
        errors := st.errors + (if readback st.sim.chip.mem st.address = b then 0 else 1),
        log := st.log ++
          (if readback st.sim.chip.mem st.address = b then []
           else [(st.address, b, readback st.sim.chip.mem st.address)]),
        reads := st.reads ++ [st.address] } := by
  unfold verifyStep
  rw [readByteM_eq st.sim st.address h]
  by_cases hb : readback st.sim.chip.mem st.address = b <;> simp [hb]

theorem verifyFold (bs : List Nat) :
    ∀ st : ScanState, wf st.sim →
      wf (bs.foldl verifyStep st).sim ∧
      (bs.foldl verifyStep st).sim.chip = st.sim.chip ∧
      (bs.foldl verifyStep st).sim.writes = st.sim.writes ∧
      (bs.foldl verifyStep st).sim.dirs = st.sim.dirs ∧
      (bs.foldl verifyStep st).address = st.address + bs.length ∧
      (bs.foldl verifyStep st).errors
        = st.errors + (mismatches st.sim.chip.mem st.address bs).length ∧
      (bs.foldl verifyStep st).log = st.log ++ mismatches st.sim.chip.mem st.address bs ∧
      (bs.foldl verifyStep st).reads = st.reads ++ List.range' st.address bs.length := by
  induction bs with
  | nil =>
    intro st h
    exact ⟨h, rfl, rfl, rfl, rfl, by simp [mismatches], by simp [mismatches], by simp⟩
  | cons b bs ih =>
    intro st h
    have hstep := verifyStep_eq st b h
    have hwf1 : wf (verifyStep st b).sim := by
      rw [hstep]
      exact ⟨shiftAddressBits_length _, h.2.1, h.2.2⟩
    obtain ⟨q1, q2, q3, q4, q5, q6, q7, q8⟩ := ih (verifyStep st b) hwf1
    have ha : (verifyStep st b).address = st.address + 1 := by rw [hstep]
    have he : (verifyStep st b).errors
        = st.errors + (if readback st.sim.chip.mem st.address = b then 0 else 1) := by
      rw [hstep]
    have hl : (verifyStep st b).log = st.log ++
        (if readback st.sim.chip.mem st.address = b then []
         else [(st.address, b, readback st.sim.chip.mem st.address)]) := by
      rw [hstep]
    have hr : (verifyStep st b).reads = st.reads ++ [st.address] := by rw [hstep]
    have hchip : (verifyStep st b).sim.chip = st.sim.chip := by rw [hstep]; rfl
    have hwrites : (verifyStep st b).sim.writes = st.sim.writes := by rw [hstep]; rfl
    have hdirs : (verifyStep st b).sim.dirs = st.sim.dirs := by rw [hstep]; rfl
    rw [List.foldl_cons]
    have hmm : mismatches st.sim.chip.mem st.address (b :: bs)
        = (if readback st.sim.chip.mem st.address = b then []
           else [(st.address, b, readback st.sim.chip.mem st.address)])
          ++ mismatches st.sim.chip.mem (st.address + 1) bs := rfl
    refine ⟨q1, by rw [q2, hchip], by rw [q3, hwrites], by rw [q4, hdirs], ?_, ?_, ?_, ?_⟩
    · rw [q5, ha]
      simp
      omega
    · rw [q6, he, hchip, ha, hmm]
      by_cases hb : readback st.sim.chip.mem st.address = b <;> simp [hb] <;> omega
    · rw [q7, hl, hchip, ha, hmm, List.append_assoc]
    · rw [q8, hr, ha, List.append_assoc]
      show _ = st.reads ++ List.range' st.address (bs.length + 1)
      rw [List.range'_succ]
      rfl

theorem verifyLoop_spec (n : Nat) :
    ∀ (fil : List Nat), fil.length ≤ n → ∀ (st : ScanState) (r : Nat), wf st.sim →
      (verifyLoop fil st r).state.address = st.address + fil.length ∧
      (verifyLoop fil st r).state.errors
        = st.errors + (mismatches st.sim.chip.mem st.address fil).length ∧
      (verifyLoop fil st r).state.log
        = st.log ++ mismatches st.sim.chip.mem st.address fil ∧
      (verifyLoop fil st r).state.reads = st.reads ++ List.range' st.address fil.length ∧
      (verifyLoop fil st r).readCalls = r + fil.length / BUFFER_SIZE + 1 ∧
      wf (verifyLoop fil st r).state.sim ∧
      (verifyLoop fil st r).state.sim.chip = st.sim.chip ∧
      (verifyLoop fil st r).state.sim.dirs = st.sim.dirs := by
  induction n with
  | zero =>
    intro fil hlen st r hwf
    have hnil : fil = [] := List.length_eq_zero.mp (by omega)
    subst hnil
    rw [verifyLoop, dif_pos (by simp [BUFFER_SIZE])]
    refine ⟨?_, ?_, ?_, ?_, ?_, ?_, ?_, ?_⟩ <;>
      simp [mismatches, BUFFER_SIZE, hwf]
  | succ n ih =>
    intro fil hlen st r hwf
    by_cases hc : fil.length < BUFFER_SIZE
    · have htake : fil.take BUFFER_SIZE = fil := List.take_of_length_le (by omega)
      rw [verifyLoop, dif_pos (by rw [htake]; exact hc)]
      rw [htake]
      obtain ⟨q1, q2, q3, q4, q5, q6, q7, q8⟩ := verifyFold fil st hwf
      exact ⟨q5, q6, q7, q8, by rw [Nat.div_eq_of_lt hc], q1, q2, q4⟩
    · have htlen : (fil.take BUFFER_SIZE).length = BUFFER_SIZE := by
        rw [List.length_take]; omega
      rw [verifyLoop, dif_neg (by rw [htlen]; omega)]
      obtain ⟨q1, q2, q3, q4, q5, q6, q7, q8⟩ := verifyFold (fil.take BUFFER_SIZE) st hwf
      have hrest : (fil.drop BUFFER_SIZE).length ≤ n := by
        rw [List.length_drop]
        simp only [BUFFER_SIZE] at hc hlen ⊢
        omega
      obtain ⟨r1, r2, r3, r4, r5, r6, r7, r8⟩ :=
        ih (fil.drop BUFFER_SIZE) hrest _ (r + 1) q1
      have hsplit : mismatches st.sim.chip.mem st.address fil
          = mismatches st.sim.chip.mem st.address (fil.take BUFFER_SIZE)
            ++ mismatches st.sim.chip.mem (st.address + BUFFER_SIZE)
                (fil.drop BUFFER_SIZE) := by
        conv_lhs => rw [← List.take_append_drop BUFFER_SIZE fil]
        rw [mismatches_append, htlen]
      have hrsplit : List.range' st.address fil.length
          = List.range' st.address BUFFER_SIZE
            ++ List.range' (st.address + BUFFER_SIZE) (fil.length - BUFFER_SIZE) := by
        have h0 := List.range'_append st.address BUFFER_SIZE (fil.length - BUFFER_SIZE) 1
        simp only [Nat.one_mul, Nat.mul_one] at h0
        have h1 : fil.length - BUFFER_SIZE + BUFFER_SIZE = fil.length := by
          simp only [BUFFER_SIZE] at hc ⊢
          omega
        rw [h0, h1]
      refine ⟨?_, ?_, ?_, ?_, ?_, r6, ?_, ?_⟩
      · rw [r1, q5, htlen, List.length_drop]
        simp only [BUFFER_SIZE] at hc ⊢
        omega
      · rw [r2, q6, q2, q5, htlen, hsplit]
        simp [List.length_append]
        omega
      · rw [r3, q7, q2, q5, htlen, hsplit, List.append_assoc]
      · rw [r4, q8, q5, htlen, List.length_drop, hrsplit, List.append_assoc]
      · rw [r5, List.length_drop]
        simp only [BUFFER_SIZE] at hc ⊢
        omega
      · rw [r7, q2]
      · rw [r8, q4]

/-! ### Top-level run lemmas -/

theorem writeFileRun_spec (fil : List Nat) (s : Sim) (h : wf s) :
    (EEPROM_WriteCurrentFileRun fil s).address = fil.length ∧
    (EEPROM_WriteCurrentFileRun fil s).readCalls = fil.length / BUFFER_SIZE + 1 ∧
    wf (EEPROM_WriteCurrentFileRun fil s).sim ∧
    (EEPROM_WriteCurrentFileRun fil s).sim.writes = s.writes ++ progOps 0 fil ∧
    (EEPROM_WriteCurrentFileRun fil s).sim.chip = chipRun s.chip (progOps 0 fil) := by
  unfold EEPROM_WriteCurrentFileRun
  have hw := run_setWriteMode s h.2.1 h.2.2
  have hwf2 : wf (runTrace setWriteModeTrace s) := by
    rw [hw]
    exact ⟨h.1, by simp, by simp⟩
  obtain ⟨q1, q2, q3, q4, q5, q6⟩ :=
    fileLoop_spec fil.length fil le_rfl (runTrace setWriteModeTrace s) 0 0 hwf2
  simp only [Nat.zero_add] at q1 q2
  have hwrit : (runTrace setWriteModeTrace s).writes = s.writes := by rw [hw]
  have hchip : (runTrace setWriteModeTrace s).chip = s.chip := by rw [hw]
  refine ⟨q1, q2, q3, ?_, ?_⟩
  · rw [q4, hwrit]
  · rw [q5, hchip]

theorem readVerifyRun_spec (fil : List Nat) (s : Sim) (h : wf s) :
    (EEPROM_ReadAndVerifyRun fil s).state.address = fil.length ∧
    (EEPROM_ReadAndVerifyRun fil s).state.errors
      = (mismatches s.chip.mem 0 fil).length ∧
    (EEPROM_ReadAndVerifyRun fil s).state.log = mismatches s.chip.mem 0 fil ∧
    (EEPROM_ReadAndVerifyRun fil s).state.reads = List.range' 0 fil.length ∧
    (EEPROM_ReadAndVerifyRun fil s).readCalls = fil.length / BUFFER_SIZE + 1 ∧
    wf (EEPROM_ReadAndVerifyRun fil s).state.sim ∧
    (EEPROM_ReadAndVerifyRun fil s).state.sim.chip = s.chip := by
  unfold EEPROM_ReadAndVerifyRun
  obtain ⟨f1, f2, f3, f4, f5, f6⟩ := setReadModeRun_fields s
  have hwf2 : wf (setReadModeRun s) := wf_setReadModeRun s h
  obtain ⟨q1, q2, q3, q4, q5, q6, q7, q8⟩ :=
    verifyLoop_spec fil.length fil le_rfl ⟨setReadModeRun s, 0, 0, [], []⟩ 0 hwf2
  simp only [Nat.zero_add, List.nil_append] at q1 q2 q3 q4 q5
  rw [f4] at q2 q3 q7
  exact ⟨q1, q2, q3, q4, q5, q6, q7⟩

theorem erasedLoop_foldl (n : Nat) :
    ∀ st : ScanState, erasedLoop st n = (List.replicate n 0xFF).foldl verifyStep st := by
  induction n with
  | zero => intro st; rfl
  | succ n ih =>
    intro st
    rw [List.replicate_succ, List.foldl_cons]
    exact ih (verifyStep st 0xFF)

theorem verifyErasedRun_spec (s : Sim) (h : wf s) :
    (EEPROM_VerifyErasedRun s).address = MAX_EEPROM_ADDRESS_SPACE ∧
    (EEPROM_VerifyErasedRun s).errors
      = (mismatches s.chip.mem 0
          (List.replicate MAX_EEPROM_ADDRESS_SPACE 0xFF)).length ∧
    (EEPROM_VerifyErasedRun s).log
      = mismatches s.chip.mem 0 (List.replicate MAX_EEPROM_ADDRESS_SPACE 0xFF) ∧
    (EEPROM_VerifyErasedRun s).reads = List.range' 0 MAX_EEPROM_ADDRESS_SPACE ∧
    (EEPROM_VerifyErasedRun s).sim.dirs = List.replicate 8 false := by
  unfold EEPROM_VerifyErasedRun
  rw [erasedLoop_foldl]
  obtain ⟨f1, f2, f3, f4, f5, f6⟩ := setReadModeRun_fields s
  have hwf2 : wf (setReadModeRun s) := wf_setReadModeRun s h
  obtain ⟨q1, q2, q3, q4, q5, q6, q7, q8⟩ :=
    verifyFold (List.replicate MAX_EEPROM_ADDRESS_SPACE 0xFF)
      ⟨setReadModeRun s, 0, 0, [], []⟩ hwf2
  simp only [List.length_replicate, Nat.zero_add, List.nil_append] at q5 q6 q8
  rw [f4] at q6 q7
  have hdirs : (setReadModeRun s).dirs = List.replicate 8 false := by
    rw [f5, dirs_all_false s.dirs h.2.2]
  refine ⟨q5, q6, ?_, q8, by rw [q4]; exact hdirs⟩
  rw [q7]
  exact List.nil_append _

/-! ### storeBytes and mismatch-counting lemmas -/

theorem storeBytes_lt (bs : List Nat) :
    ∀ (mem : Nat → Nat) (a x : Nat), x < a → a + bs.length ≤ 2 ^ 24 →
      storeBytes mem a bs x = mem x := by
  induction bs with
  | nil => intro mem a x _ _; rfl
  | cons b bs ih =>
    intro mem a x hx hb
    show storeBytes (update mem (a % 2 ^ 24) (b % 256)) (a + 1) bs x = mem x
    rw [ih _ (a + 1) x (by omega) (by simp at hb ⊢; omega)]
    have ha : a % 2 ^ 24 = a := Nat.mod_eq_of_lt (by simp at hb; omega)
    simp [update, ha]
    omega

theorem storeBytes_get (bs : List Nat) :
    ∀ (mem : Nat → Nat) (a x : Nat), a ≤ x → x < a + bs.length →
      a + bs.length ≤ 2 ^ 24 → storeBytes mem a bs x = bs.getD (x - a) 0 % 256 := by
  induction bs with
  | nil => intro mem a x h1 h2 _; simp at h2; omega
  | cons b bs ih =>
    intro mem a x h1 h2 h3
    show storeBytes (update mem (a % 2 ^ 24) (b % 256)) (a + 1) bs x = _
    by_cases hx : x = a
    · subst hx
      rw [storeBytes_lt bs _ (x + 1) x (by omega) (by simp at h3 ⊢; omega)]
      have ha : x % 2 ^ 24 = x := Nat.mod_eq_of_lt (by simp at h3; omega)
      show update mem (x % 2 ^ 24) (b % 256) x = (b :: bs).getD (x - x) 0 % 256
      rw [ha]
      simp [update]
    · have hax : a + 1 ≤ x := by omega
      rw [ih _ (a + 1) x hax (by simp at h2 ⊢; omega) (by simp at h3 ⊢; omega)]
      have hidx : x - a = (x - (a + 1)) + 1 := by omega
      rw [hidx, List.getD_cons_succ]

theorem mismatches_eq_nil (bs : List Nat) :
    ∀ (mem : Nat → Nat) (a : Nat),
      (∀ i, i < bs.length → readback mem (a + i) = bs.getD i 0) →
      mismatches mem a bs = [] := by
  induction bs with
  | nil => intro mem a _; rfl
  | cons b bs ih =>
    intro mem a hall
    have h0 : readback mem a = b := by
      have := hall 0 (by simp)
      simpa using this
    show (if readback mem a = b then [] else _) ++ mismatches mem (a + 1) bs = []
    rw [if_pos h0, List.nil_append]
    refine ih mem (a + 1) ?_
    intro i hi
    have := hall (i + 1) (by simp; omega)
    rw [show a + (i + 1) = a + 1 + i by omega] at this
    simpa using this

theorem mismatches_length_countP (bs : List Nat) :
    ∀ (mem : Nat → Nat) (a : Nat),
      (mismatches mem a bs).length
        = (List.range bs.length).countP
            (fun i => !(readback mem (a + i) == bs.getD i 0)) := by
  induction bs with
  | nil => intro mem a; rfl
  | cons b bs ih =>
    intro mem a
    show ((if readback mem a = b then [] else [(a, b, readback mem a)])
        ++ mismatches mem (a + 1) bs).length = _
    simp only [List.length_cons]
    rw [List.length_append, List.range_succ_eq_map, List.countP_cons, List.countP_map,
      ih mem (a + 1)]
    have hcong : (List.range bs.length).countP
          ((fun i => !(readback mem (a + i) == (b :: bs).getD i 0)) ∘ Nat.succ)
        = (List.range bs.length).countP
          (fun i => !(readback mem (a + 1 + i) == bs.getD i 0)) := by
      refine List.countP_congr ?_
      intro x _
      simp only [Function.comp, Nat.succ_eq_add_one, List.getD_cons_succ]
      rw [show a + (x + 1) = a + 1 + x by omega]
    rw [hcong]
    by_cases hb : readback mem a = b <;> simp [hb] <;> omega

theorem mismatches_replicate_length (c : Nat) (n : Nat) :
    ∀ (mem : Nat → Nat) (a : Nat),
      (mismatches mem a (List.replicate n c)).length
        = ((List.range' a n).filter (fun x => !(readback mem x == c))).length := by
  induction n with
  | zero => intro mem a; rfl
  | succ n ih =>
    intro mem a
    rw [List.replicate_succ, List.range'_succ]
    show ((if readback mem a = c then [] else [(a, c, readback mem a)])
        ++ mismatches mem (a + 1) (List.replicate n c)).length = _
    rw [List.length_append, ih mem (a + 1)]
    by_cases hb : readback mem a = c <;>
      simp [List.filter_cons, hb] <;> omega

theorem getD_replicate_self (c : Nat) (n : Nat) :
    ∀ i, i < n → (List.replicate n c).getD i 0 = c := by
  induction n with
  | zero => intro i hi; omega
  | succ n ih =>
    intro i hi
    rw [List.replicate_succ]
    cases i with
    | zero => rfl
    | succ i => rw [List.getD_cons_succ]; exact ih i (by omega)

theorem progOps_mem (bs : List Nat) :
    ∀ (a i : Nat), i < bs.length →
      ((a + i) % 2 ^ 24, bs.getD i 0 % 256) ∈ progOps a bs := by
  induction bs with
  | nil => intro a i hi; simp at hi
  | cons b bs ih =>
    intro a i hi
    cases i with
    | zero =>
      refine List.mem_append_left _ ?_
      simp [wbOps]
    | succ i =>
      refine List.mem_append_right _ ?_
      have := ih (a + 1) i (by simp at hi; omega)
      rw [show a + 1 + i = a + (i + 1) by omega] at this
      simpa using this

theorem mismatches_storeBytes (fil : List Nat) (mem : Nat → Nat)
    (hlen : fil.length ≤ 2 ^ 24) (hbytes : ∀ b ∈ fil, b < 256) :
    mismatches (storeBytes mem 0 fil) 0 fil = [] := by
  apply mismatches_eq_nil
  intro i hi
  have hi24 : i < 2 ^ 24 := by omega
  have hb : fil.getD i 0 < 256 := by
    have hmem : fil.getD i 0 ∈ fil := by
      rw [List.getD_eq_getElem fil 0 hi]
      exact List.getElem_mem hi
    exact hbytes _ hmem
  show readback (storeBytes mem 0 fil) (0 + i) = fil.getD i 0
  unfold readback
  rw [Nat.zero_add, Nat.mod_eq_of_lt hi24,
    storeBytes_get fil mem 0 i (by omega) (by omega) (by omega),
    Nat.sub_zero, Nat.mod_eq_of_lt hb, Nat.mod_eq_of_lt hb]

/-! ### Pulse-counting lemmas for shiftAddress -/

theorem countP_bitBlock_clock (b : Bool) : (bitBlock b).countP isClockRise = 1 := by
  cases b <;> rfl

theorem countP_bitBlock_latch (b : Bool) : (bitBlock b).countP isLatchRise = 0 := by
  cases b <;> rfl

theorem countP_bitBlocks_clock (bs : List Bool) :
    (bitBlocks bs).countP isClockRise = bs.length := by
  induction bs with
  | nil => rfl
  | cons b bs ih =>
    show (bitBlock b ++ bitBlocks bs).countP isClockRise = bs.length + 1
    rw [List.countP_append, countP_bitBlock_clock, ih]
    omega

theorem countP_bitBlocks_latch (bs : List Bool) :
    (bitBlocks bs).countP isLatchRise = 0 := by
  induction bs with
  | nil => rfl
  | cons b bs ih =>
    show (bitBlock b ++ bitBlocks bs).countP isLatchRise = 0
    rw [List.countP_append, countP_bitBlock_latch, ih]

theorem countP_shiftAddress_clock (a : Nat) :
    (shiftAddressTrace a).countP isClockRise = ADDRESS_LINES := by
  unfold shiftAddressTrace
  rw [List.countP_append, List.countP_append, countP_bitBlocks_clock,
    shiftAddressBits_length]
  rfl

theorem countP_shiftAddress_latch (a : Nat) :
    (shiftAddressTrace a).countP isLatchRise = 1 := by
  unfold shiftAddressTrace
  rw [List.countP_append, List.countP_append, countP_bitBlocks_latch]
  rfl

theorem shiftAddressBits_mod (a : Nat) :
    shiftAddressBits (a % 2 ^ 24) = shiftAddressBits a := by
  show shiftBitsAux 24 (a % 2 ^ 24) = shiftBitsAux 24 a
  exact shiftBitsAux_mod 24 a

theorem shiftAddressTrace_mod (a : Nat) :
    shiftAddressTrace (a % 2 ^ 24) = shiftAddressTrace a := by
  unfold shiftAddressTrace
  rw [shiftAddressBits_mod]

theorem wf_sim0 : wf sim0 := ⟨rfl, rfl, rfl⟩

theorem sim0_phase : sim0.chip.phase = 0 := rfl

/-! ### Claim theorems -/

/-- C3: for every address `addr` in range and byte `data`, the unlocked byte
write `EEPROM_writeByte(addr, data)` issues exactly four bus writes,
back-to-back with no other bus activity interleaved, in the order
(0x5555, 0xAA), (0x2AAA, 0x55), (0x5555, 0xA0), (addr, data).  The bus
writes are extracted from the complete pin-level trace of the call (a bus
write is sampled at each /WE falling edge), so the four-element log is
exactly the bus activity of the whole call. -/
theorem C3_unlocked_write_bus_sequence (address data : Nat) (s : Sim)
    (ha : address < 2 ^ 19) (hd : data < 256) (hwf : wf s) :
    (runTrace (EEPROM_writeByteTrace address data) s).writes
      = s.writes ++ [(0x5555, 0xAA), (0x2AAA, 0x55), (0x5555, 0xA0), (address, data)] := by
  obtain ⟨w1, e1, c1, d1⟩ := run_writeByte_fields address data s hwf
  rw [e1]
  have ha24 : address % 2 ^ 24 = address :=
    Nat.mod_eq_of_lt (lt_of_lt_of_le ha (by norm_num))
  have hd256 : data % 256 = data := Nat.mod_eq_of_lt hd
  unfold wbOps
  rw [ha24, hd256]

/-- Witness for C3 at address 3, data 7, starting from the concrete
hardware state `sim0`. -/
theorem C3_unlocked_write_bus_sequence_witness :
    3 < 2 ^ 19 ∧ 7 < 256 ∧ wf sim0 ∧
    (runTrace (EEPROM_writeByteTrace 3 7) sim0).writes
      = sim0.writes ++ [(0x5555, 0xAA), (0x2AAA, 0x55), (0x5555, 0xA0), (3, 7)] :=
  ⟨by decide, by decide, wf_sim0,
    C3_unlocked_write_bus_sequence 3 7 sim0 (by decide) (by decide) wf_sim0⟩

/-- C4: `EEPROM_chipErase` issues exactly the six bus writes
(0x5555, 0xAA), (0x2AAA, 0x55), (0x5555, 0x80), (0x5555, 0xAA),
(0x2AAA, 0x55), (0x5555, 0x10) in that order with nothing interleaved
(the six-element log is extracted from the complete pin-level trace), and
its final event is the 1000 ms wait, which meets the ~100 ms worst-case
erase-cycle time, so no further bus activity happens before that wait. -/
theorem C4_chip_erase_bus_sequence (s : Sim) (hwf : wf s) :
    (runTrace EEPROM_chipEraseTrace s).writes
      = s.writes ++ [(0x5555, 0xAA), (0x2AAA, 0x55), (0x5555, 0x80),
          (0x5555, 0xAA), (0x2AAA, 0x55), (0x5555, 0x10)]
    ∧ EEPROM_chipEraseTrace.getLast? = some (Ev.sleepMs 1000)
    ∧ 100 ≤ 1000 := by
  refine ⟨?_, ?_, by norm_num⟩
  · have hw := run_setWriteMode s hwf.2.1 hwf.2.2
    have hwf1 : wf (runTrace setWriteModeTrace s) := by
      rw [hw]
      exact ⟨hwf.1, by simp, by simp⟩
    have hwrit0 : (runTrace setWriteModeTrace s).writes = s.writes := by rw [hw]
    obtain ⟨w1, e1, c1, d1⟩ := run_write_fields 0x5555 0xAA _ hwf1
    obtain ⟨w2, e2, c2, d2⟩ := run_write_fields 0x2AAA 0x55 _ w1
    obtain ⟨w3, e3, c3, d3⟩ := run_write_fields 0x5555 0x80 _ w2
    obtain ⟨w4, e4, c4, d4⟩ := run_write_fields 0x5555 0xAA _ w3
    obtain ⟨w5, e5, c5, d5⟩ := run_write_fields 0x2AAA 0x55 _ w4
    obtain ⟨w6, e6, c6, d6⟩ := run_write_fields 0x5555 0x10 _ w5
    have happ : runTrace EEPROM_chipEraseTrace s =
        runTrace [Ev.sleepMs 1000] (runTrace (writeTrace 0x5555 0x10)
          (runTrace (writeTrace 0x2AAA 0x55) (runTrace (writeTrace 0x5555 0xAA)
            (runTrace (writeTrace 0x5555 0x80) (runTrace (writeTrace 0x2AAA 0x55)
              (runTrace (writeTrace 0x5555 0xAA)
                (runTrace setWriteModeTrace s))))))) := by
      show runTrace ((setWriteModeTrace
          ++ (writeTrace 0x5555 0xAA ++ (writeTrace 0x2AAA 0x55 ++ (writeTrace 0x5555 0x80
          ++ (writeTrace 0x5555 0xAA ++ (writeTrace 0x2AAA 0x55 ++ writeTrace 0x5555 0x10))))))
          ++ [Ev.sleepMs 1000]) s = _
      rw [runTrace_append, runTrace_append, runTrace_append, runTrace_append,
        runTrace_append, runTrace_append, runTrace_append]
    have hsleep : ∀ x : Sim, runTrace [Ev.sleepMs 1000] x = x := fun x => rfl
    rw [happ, hsleep, e6, e5, e4, e3, e2, e1, hwrit0]
    simp [List.append_assoc]
  · show ((setWriteModeTrace
        ++ writeTrace 0x5555 0xAA ++ writeTrace 0x2AAA 0x55 ++ writeTrace 0x5555 0x80
        ++ writeTrace 0x5555 0xAA ++ writeTrace 0x2AAA 0x55 ++ writeTrace 0x5555 0x10)
        ++ [Ev.sleepMs 1000]).getLast? = some (Ev.sleepMs 1000)
    exact List.getLast?_concat _

/-- Witness for C4 from the concrete hardware state `sim0`. -/
theorem C4_chip_erase_bus_sequence_witness :
    wf sim0 ∧
    ((runTrace EEPROM_chipEraseTrace sim0).writes
      = sim0.writes ++ [(0x5555, 0xAA), (0x2AAA, 0x55), (0x5555, 0x80),
          (0x5555, 0xAA), (0x2AAA, 0x55), (0x5555, 0x10)]
    ∧ EEPROM_chipEraseTrace.getLast? = some (Ev.sleepMs 1000)
    ∧ 100 ≤ 1000) :=
  ⟨wf_sim0, C4_chip_erase_bus_sequence sim0 wf_sim0⟩

/-- C7: `shiftAddress(addr)` serializes `addr` least-significant-bit first
(bit i of the serialized list is bit i of `addr`), shifts exactly
`ADDRESS_LINES` bits with one clock pulse per bit, pulses the latch exactly
once, shifts all zeros for `addr = 0` and all ones on the 19 address bits
for `addr = 2^19 - 1`, and is idempotent on the latched register state:
shifting the same value twice leaves the same latched outputs. -/
theorem C7_shiftAddress_serialization (a : Nat) (ha : a < 2 ^ 19) :
    (shiftAddressBits a).length = ADDRESS_LINES
    ∧ (∀ i, i < ADDRESS_LINES → (shiftAddressBits a).getD i false = a.testBit i)
    ∧ (shiftAddressTrace a).countP isClockRise = ADDRESS_LINES
    ∧ (shiftAddressTrace a).countP isLatchRise = 1
    ∧ (a = 0 → ∀ b ∈ shiftAddressBits a, b = false)
    ∧ (a = 2 ^ 19 - 1 → ∀ i, i < 19 → (shiftAddressBits a).getD i false = true)
    ∧ (∀ s : Sim, wf s →
        (runTrace (shiftAddressTrace a) (runTrace (shiftAddressTrace a) s)).latched
          = (runTrace (shiftAddressTrace a) s).latched) := by
  refine ⟨shiftAddressBits_length a, ?_, countP_shiftAddress_clock a,
    countP_shiftAddress_latch a, ?_, ?_, ?_⟩
  · intro i hi
    exact shiftBitsAux_getD ADDRESS_LINES i a hi
  · intro h0
    subst h0
    intro b hb
    have : shiftAddressBits 0 = List.replicate ADDRESS_LINES false := by
      show shiftBitsAux 24 0 = _
      exact shiftBitsAux_zero 24
    rw [this] at hb
    exact List.eq_of_mem_replicate hb
  · intro hmax i hi
    subst hmax
    have hgd : (shiftAddressBits (2 ^ 19 - 1)).getD i false
        = (2 ^ 19 - 1 : Nat).testBit i :=
      shiftBitsAux_getD ADDRESS_LINES i _ (by unfold ADDRESS_LINES at *; omega)
    rw [hgd]
    have hall : ∀ j, j < 19 → (2 ^ 19 - 1 : Nat).testBit j = true := by decide
    exact hall i hi
  · intro s hs
    have h1 := run_shiftAddress a s hs.1
    have hlen : (runTrace (shiftAddressTrace a) s).reg.length = ADDRESS_LINES := by
      rw [h1]
      exact shiftAddressBits_length a
    have h2 := run_shiftAddress a (runTrace (shiftAddressTrace a) s) hlen
    rw [h2, h1]

/-- Witness for C7 at address 5. -/
theorem C7_shiftAddress_serialization_witness :
    5 < 2 ^ 19
    ∧ ((shiftAddressBits 5).length = ADDRESS_LINES
    ∧ (∀ i, i < ADDRESS_LINES → (shiftAddressBits 5).getD i false = Nat.testBit 5 i)
    ∧ (shiftAddressTrace 5).countP isClockRise = ADDRESS_LINES
    ∧ (shiftAddressTrace 5).countP isLatchRise = 1
    ∧ ((5 : Nat) = 0 → ∀ b ∈ shiftAddressBits 5, b = false)
    ∧ ((5 : Nat) = 2 ^ 19 - 1 → ∀ i, i < 19 → (shiftAddressBits 5).getD i false = true)
    ∧ (∀ s : Sim, wf s →
        (runTrace (shiftAddressTrace 5) (runTrace (shiftAddressTrace 5) s)).latched
          = (runTrace (shiftAddressTrace 5) s).latched)) :=
  ⟨by decide, C7_shiftAddress_serialization 5 (by decide)⟩

/-- C10: `shiftAddress` depends only on the low 24 bits of its argument:
for every value `a` (in particular every 32-bit value), the pin-event trace
of `shiftAddress(a mod 2^24)` is identical to that of `shiftAddress(a)`,
and therefore so is every resulting hardware state, including the latched
register; addresses congruent modulo 2^24 are indistinguishable on the
address bus. -/
theorem C10_shiftAddress_mod_2pow24 (a : Nat) :
    shiftAddressTrace (a % 2 ^ 24) = shiftAddressTrace a
    ∧ (∀ s : Sim, runTrace (shiftAddressTrace (a % 2 ^ 24)) s
        = runTrace (shiftAddressTrace a) s)
    ∧ (∀ s : Sim, (runTrace (shiftAddressTrace (a % 2 ^ 24)) s).latched
        = (runTrace (shiftAddressTrace a) s).latched) := by
  refine ⟨shiftAddressTrace_mod a, fun s => by rw [shiftAddressTrace_mod],
    fun s => by rw [shiftAddressTrace_mod]⟩

/-- C1: write-then-read round trip.  Entering Write mode, performing the
unlocked byte write of `b` to address `a` (`EEPROM_writeByte`), switching
to Read mode and reading address `a` (`EEPROM_readByte`) returns exactly
`b`, for every address in `[0, 2^19-1]` and every byte, over the chip
model in which a completed unlocked write stores its byte at its bus
address (chip initially in command phase 0). -/
theorem C1_write_read_roundtrip (a b : Nat) (s : Sim) (ha : a < 2 ^ 19)
    (hb : b < 256) (hwf : wf s) (hphase : s.chip.phase = 0) :
    (EEPROM_readByteM
      (setReadModeRun (runTrace (EEPROM_writeByteTrace a b)
        (runTrace setWriteModeTrace s))) a).1 = b := by
  have hw := run_setWriteMode s hwf.2.1 hwf.2.2
  have hwf1 : wf (runTrace setWriteModeTrace s) := by
    rw [hw]
    exact ⟨hwf.1, by simp, by simp⟩
  have hchip1 : (runTrace setWriteModeTrace s).chip = s.chip := by rw [hw]
  obtain ⟨w2, e2, c2, d2⟩ := run_writeByte_fields a b _ hwf1
  obtain ⟨f1, f2, f3, f4, f5, f6⟩ := setReadModeRun_fields
    (runTrace (EEPROM_writeByteTrace a b) (runTrace setWriteModeTrace s))
  have hwf3 : wf (setReadModeRun
      (runTrace (EEPROM_writeByteTrace a b) (runTrace setWriteModeTrace s))) :=
    wf_setReadModeRun _ w2
  rw [readByteM_eq
    (setReadModeRun (runTrace (EEPROM_writeByteTrace a b) (runTrace setWriteModeTrace s)))
    a hwf3]
  show readback (setReadModeRun
    (runTrace (EEPROM_writeByteTrace a b) (runTrace setWriteModeTrace s))).chip.mem a = b
  rw [f4, c2, hchip1, chipRun_wbOps s.chip a b hphase]
  show update s.chip.mem (a % 2 ^ 24) (b % 256) (a % 2 ^ 24) % 256 = b
  simp [update, Nat.mod_eq_of_lt hb]

/-- Witness for C1 at address 3, byte 7, from the concrete state `sim0`. -/
theorem C1_write_read_roundtrip_witness :
    3 < 2 ^ 19 ∧ 7 < 256 ∧ wf sim0 ∧ sim0.chip.phase = 0 ∧
    (EEPROM_readByteM
      (setReadModeRun (runTrace (EEPROM_writeByteTrace 3 7)
        (runTrace setWriteModeTrace sim0))) 3).1 = 7 :=
  ⟨by decide, by decide, wf_sim0, sim0_phase,
    C1_write_read_roundtrip 3 7 sim0 (by decide) (by decide) wf_sim0 sim0_phase⟩

/-- C2: programming a stream of `n ≤ 2^19` bytes
(`EEPROM_WriteCurrentFile`) and then verifying a fresh stream of the same
bytes (`EEPROM_ReadAndVerify`) yields a final program cursor of `n`, a
verification error count of 0, and a final verification cursor of `n`,
over the chip model in which each completed unlocked write stores its byte
(chip initially in command phase 0). -/
theorem C2_program_then_verify_clean (fil : List Nat) (s : Sim)
    (hlen : fil.length ≤ 2 ^ 19) (hbytes : ∀ b ∈ fil, b < 256)
    (hwf : wf s) (hphase : s.chip.phase = 0) :
    (EEPROM_WriteCurrentFileRun fil s).address = fil.length
    ∧ (EEPROM_ReadAndVerifyRun fil (EEPROM_WriteCurrentFileRun fil s).sim).state.errors
        = 0
    ∧ (EEPROM_ReadAndVerifyRun fil (EEPROM_WriteCurrentFileRun fil s).sim).state.address
        = fil.length := by
  obtain ⟨p1, p2, p3, p4, p5⟩ := writeFileRun_spec fil s hwf
  have hchipW : (EEPROM_WriteCurrentFileRun fil s).sim.chip
      = { mem := storeBytes s.chip.mem 0 fil, phase := 0 } := by
    rw [p5, chipRun_progOps fil s.chip 0 hphase]
  obtain ⟨v1, v2, v3, v4, v5, v6, v7⟩ :=
    readVerifyRun_spec fil (EEPROM_WriteCurrentFileRun fil s).sim p3
  refine ⟨p1, ?_, v1⟩
  rw [v2, hchipW]
  show (mismatches (storeBytes s.chip.mem 0 fil) 0 fil).length = 0
  rw [mismatches_storeBytes fil s.chip.mem (le_trans hlen (by norm_num)) hbytes]
  rfl

/-- Witness for C2 on the three-byte stream [0, 255, 60] from `sim0`. -/
theorem C2_program_then_verify_clean_witness :
    ([0, 255, 60] : List Nat).length ≤ 2 ^ 19 ∧ (∀ b ∈ ([0, 255, 60] : List Nat), b < 256)
    ∧ wf sim0 ∧ sim0.chip.phase = 0
    ∧ ((EEPROM_WriteCurrentFileRun [0, 255, 60] sim0).address = ([0, 255, 60] : List Nat).length
    ∧ (EEPROM_ReadAndVerifyRun [0, 255, 60]
        (EEPROM_WriteCurrentFileRun [0, 255, 60] sim0).sim).state.errors = 0
    ∧ (EEPROM_ReadAndVerifyRun [0, 255, 60]
        (EEPROM_WriteCurrentFileRun [0, 255, 60] sim0).sim).state.address
        = ([0, 255, 60] : List Nat).length) :=
  ⟨by decide, by decide, wf_sim0, sim0_phase,
    C2_program_then_verify_clean [0, 255, 60] sim0 (by decide) (by decide) wf_sim0 sim0_phase⟩

/-- C5: the verify loop (`EEPROM_ReadAndVerify`) never stops at a mismatch:
for every source stream and every chip contents, the final cursor equals
the stream length, the recorded log is exactly the `(address, expected,
actual)` triple of each mismatching position in order, the error count is
the number of those triples — equivalently the number of positions where
the chip byte read back differs from the source byte — and in particular a
single differing byte yields error count 1 with the cursor still reaching
the stream length. -/
theorem C5_verify_accumulates_mismatches (fil : List Nat) (s : Sim) (hwf : wf s) :
    (EEPROM_ReadAndVerifyRun fil s).state.address = fil.length
    ∧ (EEPROM_ReadAndVerifyRun fil s).state.log = mismatches s.chip.mem 0 fil
    ∧ (EEPROM_ReadAndVerifyRun fil s).state.errors = (mismatches s.chip.mem 0 fil).length
    ∧ (EEPROM_ReadAndVerifyRun fil s).state.errors
        = (List.range fil.length).countP
            (fun i => !(readback s.chip.mem i == fil.getD i 0))
    ∧ ((mismatches s.chip.mem 0 fil).length = 1 →
        (EEPROM_ReadAndVerifyRun fil s).state.errors = 1
        ∧ (EEPROM_ReadAndVerifyRun fil s).state.address = fil.length) := by
  obtain ⟨v1, v2, v3, v4, v5, v6, v7⟩ := readVerifyRun_spec fil s hwf
  refine ⟨v1, v3, v2, ?_, fun h1 => ⟨by rw [v2, h1], v1⟩⟩
  rw [v2, mismatches_length_countP fil s.chip.mem 0]
  refine List.countP_congr ?_
  intro x _
  rw [Nat.zero_add]

/-- Witness for C5 on the stream [1, 2] from `sim0` (whose chip holds 0xFF
everywhere, so both positions mismatch). -/
theorem C5_verify_accumulates_mismatches_witness :
    wf sim0
    ∧ ((EEPROM_ReadAndVerifyRun [1, 2] sim0).state.address = ([1, 2] : List Nat).length
    ∧ (EEPROM_ReadAndVerifyRun [1, 2] sim0).state.log = mismatches sim0.chip.mem 0 [1, 2]
    ∧ (EEPROM_ReadAndVerifyRun [1, 2] sim0).state.errors
        = (mismatches sim0.chip.mem 0 [1, 2]).length
    ∧ (EEPROM_ReadAndVerifyRun [1, 2] sim0).state.errors
        = (List.range ([1, 2] : List Nat).length).countP
            (fun i => !(readback sim0.chip.mem i == ([1, 2] : List Nat).getD i 0))
    ∧ ((mismatches sim0.chip.mem 0 [1, 2]).length = 1 →
        (EEPROM_ReadAndVerifyRun [1, 2] sim0).state.errors = 1
        ∧ (EEPROM_ReadAndVerifyRun [1, 2] sim0).state.address
            = ([1, 2] : List Nat).length)) :=
  ⟨wf_sim0, C5_verify_accumulates_mismatches [1, 2] sim0 wf_sim0⟩

/-- C6: `EEPROM_VerifyErased` enters Read mode (all data pins become
inputs), reads every address in `[0, 2^19 - 1]` exactly once, sequentially
in increasing order starting at 0 (its read log is precisely
`List.range 2^19`), never aborts on a mismatch (the cursor reaches 2^19),
and its final error count equals the number of addresses whose byte is not
0xFF. -/
theorem C6_verify_erased_scans_all (s : Sim) (hwf : wf s) :
    (EEPROM_VerifyErasedRun s).reads = List.range MAX_EEPROM_ADDRESS_SPACE
    ∧ (EEPROM_VerifyErasedRun s).address = MAX_EEPROM_ADDRESS_SPACE
    ∧ (EEPROM_VerifyErasedRun s).errors
        = ((List.range MAX_EEPROM_ADDRESS_SPACE).filter
            (fun x => !(s.chip.mem x % 256 == 0xFF))).length
    ∧ (EEPROM_VerifyErasedRun s).sim.dirs = List.replicate 8 false := by
  obtain ⟨g1, g2, g3, g4, g5⟩ := verifyErasedRun_spec s hwf
  refine ⟨by rw [g4, List.range_eq_range'], g1, ?_, g5⟩
  rw [g2, mismatches_replicate_length 0xFF MAX_EEPROM_ADDRESS_SPACE s.chip.mem 0,
    ← List.range_eq_range']
  have hcong : ∀ x ∈ List.range MAX_EEPROM_ADDRESS_SPACE,
      (!(readback s.chip.mem x == 0xFF)) = (!(s.chip.mem x % 256 == 0xFF)) := by
    intro x hx
    have hlt : x < MAX_EEPROM_ADDRESS_SPACE := List.mem_range.mp hx
    unfold readback
    rw [Nat.mod_eq_of_lt (lt_trans hlt (by decide))]
  rw [List.filter_congr hcong]

/-- Witness for C6 from the concrete state `sim0`. -/
theorem C6_verify_erased_scans_all_witness :
    wf sim0
    ∧ ((EEPROM_VerifyErasedRun sim0).reads = List.range MAX_EEPROM_ADDRESS_SPACE
    ∧ (EEPROM_VerifyErasedRun sim0).address = MAX_EEPROM_ADDRESS_SPACE
    ∧ (EEPROM_VerifyErasedRun sim0).errors
        = ((List.range MAX_EEPROM_ADDRESS_SPACE).filter
            (fun x => !(sim0.chip.mem x % 256 == 0xFF))).length
    ∧ (EEPROM_VerifyErasedRun sim0).sim.dirs = List.replicate 8 false) :=
  ⟨wf_sim0, C6_verify_erased_scans_all sim0 wf_sim0⟩

/-- C8 counterexample: the claim as stated requires a source of exactly one
full chunk (1024 bytes, chunk size 1024) to make no chunk request after
the final full chunk, i.e. exactly one `f_read` call; the program loop
actually makes 2: after the full chunk, `numBytesRead < BUFFER_SIZE` is
false, so the loop issues one more `f_read`, which returns 0 bytes, before
terminating. -/
theorem C8_counterexample :
    (EEPROM_WriteCurrentFileRun (List.replicate 1024 0) sim0).readCalls = 2
    ∧ (EEPROM_WriteCurrentFileRun (List.replicate 1024 0) sim0).readCalls ≠ 1 := by
  obtain ⟨p1, p2, p3, p4, p5⟩ := writeFileRun_spec (List.replicate 1024 0) sim0 wf_sim0
  rw [p2, List.length_replicate]
  norm_num [BUFFER_SIZE]

/-- C8 amended: for every source stream whose length is an exact nonzero
multiple of the chunk size 1024, the program and verify loops process no
bytes beyond the stream (the final cursor equals the stream length) and
terminate after the last full chunk with exactly one additional chunk
request — `length / 1024 + 1` requests in total, the final one returning
zero bytes — rather than with no additional request. -/
theorem C8_chunk_boundary_extra_read (fil : List Nat) (s : Sim)
    (hmul : fil.length % BUFFER_SIZE = 0) (hpos : 0 < fil.length) (hwf : wf s) :
    (EEPROM_WriteCurrentFileRun fil s).address = fil.length
    ∧ (EEPROM_WriteCurrentFileRun fil s).readCalls = fil.length / BUFFER_SIZE + 1
    ∧ (EEPROM_ReadAndVerifyRun fil s).state.address = fil.length
    ∧ (EEPROM_ReadAndVerifyRun fil s).readCalls = fil.length / BUFFER_SIZE + 1 := by
  obtain ⟨p1, p2, p3, p4, p5⟩ := writeFileRun_spec fil s hwf
  obtain ⟨v1, v2, v3, v4, v5, v6, v7⟩ := readVerifyRun_spec fil s hwf
  exact ⟨p1, p2, v1, v5⟩

/-- Witness for the amended C8 on a 1024-byte stream from `sim0`. -/
theorem C8_chunk_boundary_extra_read_witness :
    (List.replicate 1024 (0 : Nat)).length % BUFFER_SIZE = 0
    ∧ 0 < (List.replicate 1024 (0 : Nat)).length ∧ wf sim0
    ∧ ((EEPROM_WriteCurrentFileRun (List.replicate 1024 0) sim0).address
        = (List.replicate 1024 (0 : Nat)).length
    ∧ (EEPROM_WriteCurrentFileRun (List.replicate 1024 0) sim0).readCalls
        = (List.replicate 1024 (0 : Nat)).length / BUFFER_SIZE + 1
    ∧ (EEPROM_ReadAndVerifyRun (List.replicate 1024 0) sim0).state.address
        = (List.replicate 1024 (0 : Nat)).length
    ∧ (EEPROM_ReadAndVerifyRun (List.replicate 1024 0) sim0).readCalls
        = (List.replicate 1024 (0 : Nat)).length / BUFFER_SIZE + 1) :=
  ⟨by norm_num [List.length_replicate, BUFFER_SIZE],
    by norm_num [List.length_replicate], wf_sim0,
    C8_chunk_boundary_extra_read (List.replicate 1024 0) sim0
      (by norm_num [List.length_replicate, BUFFER_SIZE])
      (by norm_num [List.length_replicate]) wf_sim0⟩

/-- C9, behavior of the code at the failing input: the program loop applies
no guard at the maximum address.  On a stream of 2^19 + 1 zero bytes it
serializes a data write at bus address 0x80000 = 2^19 — one past the
maximum address `MAX_EEPROM_ADDRESS_SPACE - 1`, with bit 19 set even
though the chip decodes only address lines A0..A18 — and the cursor ends
at 2^19 + 1, having passed the maximum with no reject and no wrap at
2^19 (serialization wraps only at the 24 shift-register bits). -/
theorem C9_overflow_unguarded :
    (524288, 0) ∈ (EEPROM_WriteCurrentFileRun (List.replicate 524289 0) sim0).sim.writes
    ∧ (EEPROM_WriteCurrentFileRun (List.replicate 524289 0) sim0).address = 524289
    ∧ MAX_EEPROM_ADDRESS_SPACE - 1 < 524288 := by
  obtain ⟨p1, p2, p3, p4, p5⟩ := writeFileRun_spec (List.replicate 524289 0) sim0 wf_sim0
  refine ⟨?_, ?_, by decide⟩
  · rw [p4]
    show (524288, 0) ∈ ([] : List (Nat × Nat)) ++ progOps 0 (List.replicate 524289 0)
    rw [List.nil_append]
    have h := progOps_mem (List.replicate 524289 0) 0 524288
      (by rw [List.length_replicate]; omega)
    rw [getD_replicate_self 0 524289 524288 (by omega)] at h
    have e1 : (0 + 524288) % 2 ^ 24 = 524288 := by norm_num
    have e2 : (0 : Nat) % 256 = 0 := by norm_num
    rw [e1, e2] at h
    exact h
  · rw [p1, List.length_replicate]

end EP
